import Mathlib

/-!
Verification of the Connect-Four engine (6 rows x 12 columns) of this
repository.  The definitions below are a shallow embedding of the Python
functions of `P4.py` (the primary variant; `P4v2.py` shares the board
model verbatim).  Boards are lists of rows, each row a list of `Int`
cells; Python's out-of-range `IndexError` never arises because every loop
in the source stays inside the fixed 6 x 12 bounds, so cell access is
embedded with a default value.  Python's `copy.deepcopy`-then-mutate
pattern becomes pure functional update (`List.set`), which is the same
observable behaviour.  Search values are `float` in the source only to
have `-inf`/`+inf` available; they are embedded as `WithBot (WithTop ℤ)`.
-/

/-- Number of rows of the grid (`ROWS = 6` in `P4.py`). -/
def ROWS : Nat := 6

/-- Number of columns of the grid (`COLS = 12` in `P4.py`). -/
def COLS : Nat := 12

/-- Cell value of the engine's pieces (`AI_PLAYER = 1`). -/
def AI_PLAYER : Int := 1

/-- Cell value of the opponent's pieces (`HUMAN_PLAYER = -1`). -/
def HUMAN_PLAYER : Int := -1

/-- Cell value of an empty cell (`EMPTY = 0`). -/
def EMPTY : Int := 0

/-- A board is a list of rows (row 0 on top), each row a list of cells,
mirroring the Python list-of-lists representation. -/
abbrev Board := List (List Int)

/-- Cell access `board[row][col]`; out-of-range access (which the source
never performs on well-formed boards) defaults to `EMPTY`. -/
def getCell (b : Board) (r c : Nat) : Int :=
  (b.getD r []).getD c EMPTY

/-- Functional update `board[row][col] = v` (no-op out of range, as the
source never goes out of range). -/
def setCell (b : Board) (r c : Nat) (v : Int) : Board :=
  b.set r ((b.getD r []).set c v)

/-- Shape well-formedness: a board has exactly `ROWS` rows of `COLS`
cells, as every board built by the source does. -/
def WF (b : Board) : Prop :=
  b.length = ROWS ∧ ∀ row ∈ b, row.length = COLS

/-- The gravity invariant of the board model: in every column, below a
non-empty cell every cell is non-empty (rows grow downwards). -/
def gravity (b : Board) : Prop :=
  ∀ c, c < COLS → ∀ r, r < ROWS - 1 → getCell b r c ≠ EMPTY →
    getCell b (r + 1) c ≠ EMPTY

instance : DecidablePred WF := by
  intro b; unfold WF; infer_instance

instance : DecidablePred gravity := by
  intro b; unfold gravity; infer_instance

/-- Embedding of `is_valid_move(board, col)`: the column index is in
range and the top cell of the column is `EMPTY`. -/
def is_valid_move (b : Board) (col : Nat) : Bool :=
  decide (col < COLS) && (getCell b 0 col == EMPTY)

/-- Embedding of `get_valid_moves(board)`: the valid column indices in
ascending order. -/
def get_valid_moves (b : Board) : List Nat :=
  (List.range COLS).filter (fun col => is_valid_move b col)

/-- Loop body of `drop_piece`: scan the given row indices in order and
place the piece at the first `EMPTY` cell found; `-1` if none is. -/
def dropAux (b : Board) (col : Nat) (player : Int) : List Nat → Board × Int
  | [] => (b, -1)
  | r :: rest =>
    if getCell b r col = EMPTY then (setCell b r col player, (r : Int))
    else dropAux b col player rest

/-- Embedding of `drop_piece(board, col, player)`: scan rows from the
bottom (`range(ROWS-1, -1, -1)`) for the first `EMPTY` cell of the
column, put the piece there and return the new board with the landing
row; `(board, -1)` when the column is full. -/
def drop_piece (b : Board) (col : Nat) (player : Int) : Board × Int :=
  dropAux b col player (List.range ROWS).reverse

/-- Embedding of `check_win(board, player)`: scan every 4-cell window in
the four directions (horizontal, vertical, both diagonals) with exactly
the source's loop bounds. -/
def check_win (b : Board) (player : Int) : Bool :=
  ((List.range ROWS).any fun row => (List.range (COLS - 3)).any fun col =>
    (List.range 4).all fun i => getCell b row (col + i) == player) ||
  ((List.range (ROWS - 3)).any fun row => (List.range COLS).any fun col =>
    (List.range 4).all fun i => getCell b (row + i) col == player) ||
  ((List.range (ROWS - 3)).any fun row => (List.range (COLS - 3)).any fun col =>
    (List.range 4).all fun i => getCell b (row + i) (col + i) == player) ||
  ((List.range' 3 (ROWS - 3)).any fun row => (List.range (COLS - 3)).any fun col =>
    (List.range 4).all fun i => getCell b (row - i) (col + i) == player)

/-- Embedding of `is_board_full(board)`: every column's top cell is
non-`EMPTY` (no win check involved). -/
def is_board_full (b : Board) : Bool :=
  (List.range COLS).all fun col => !(getCell b 0 col == EMPTY)

/-- Embedding of `Terminal_Test(board)`. -/
def Terminal_Test (b : Board) : Bool :=
  check_win b AI_PLAYER || check_win b HUMAN_PLAYER || is_board_full b

/-- Embedding of `Utility(board)`: `10000` on an engine win, `-10000` on
an opponent win, `0` otherwise. -/
def Utility (b : Board) : Int :=
  if check_win b AI_PLAYER then 10000
  else if check_win b HUMAN_PLAYER then -10000
  else 0

/-- Embedding of `check_immediate_threat(board, player, col)`: drop a
piece and test for a win; `False` when the column was full (`row == -1`). -/
def check_immediate_threat (b : Board) (player : Int) (col : Nat) : Bool :=
  let res := drop_piece b col player
  if res.2 = -1 then false else check_win res.1 player

/-- Sort key of `prioritize_moves`: the index of a column in the fixed
center-preference list `[5, 6, 4, 7, 3, 8]`, and the list's length `6`
for any other column (Python's `center_columns.index(x) if x in
center_columns else len(center_columns)`). -/
def centerKey (x : Nat) : Nat :=
  List.findIdx (fun y => y == x) [5, 6, 4, 7, 3, 8]

/-- Stable sort of a column list by `centerKey`, realized as one bucket
pass over the 7 possible key values.  This is extensionally Python's
stable `list.sort(key=...)`: keys are bounded by 6, and inside each
bucket the original order is kept. -/
def bucketSortCenter (l : List Nat) : List Nat :=
  (List.range 7).flatMap fun k => l.filter fun x => centerKey x = k

/-- Embedding of `prioritize_moves(board)`: winning columns for the
engine first, then columns the opponent would win with, then the rest
sorted by the fixed center preference.  The source's single
classification loop is the same as the three exclusive filters. -/
def prioritize_moves (b : Board) : List Nat :=
  let valid := get_valid_moves b
  let winning := valid.filter fun c => check_immediate_threat b AI_PLAYER c
  let blocking := valid.filter fun c =>
    !check_immediate_threat b AI_PLAYER c && check_immediate_threat b HUMAN_PLAYER c
  let other := valid.filter fun c =>
    !check_immediate_threat b AI_PLAYER c && !check_immediate_threat b HUMAN_PLAYER c
  winning ++ blocking ++ bucketSortCenter other

/-- Award added to `seq_score` by `count_sequence` when a run ends with
`count` own pieces and `empty` empty cells seen: `+-1000` for an open
three (sign by player), else the weight table `{3: 100, 2: 10, 1: 1}`
when enough empties complete a four. -/
def csAward (player : Int) (count empty : Nat) : Int :=
  if count = 3 ∧ 1 ≤ empty then (if player = AI_PLAYER then 1000 else -1000)
  else if (count = 1 ∨ count = 2 ∨ count = 3) ∧ 4 - count ≤ empty then
    (if count = 3 then 100 else if count = 2 then 10 else 1)
  else 0

/-- Scan loop of `count_sequence`: own pieces bump `count`, empties bump
`empty`, any other cell flushes the current run's award and resets; the
final run is flushed at the end of the line. -/
def csGo (player : Int) : List Int → Nat → Nat → Int → Int
  | [], count, empty, acc => acc + csAward player count empty
  | cell :: rest, count, empty, acc =>
    if cell = player then csGo player rest (count + 1) empty acc
    else if cell = EMPTY then csGo player rest count (empty + 1) acc
    else csGo player rest 0 0 (acc + csAward player count empty)

/-- Embedding of the inner `count_sequence(line, player)` of
`heuristic`. -/
def count_sequence (line : List Int) (player : Int) : Int :=
  csGo player line 0 0 0

/-- All 4-cell windows of the board in the four directions, with the
source's loop bounds (horizontal, vertical, up-diagonal, down-diagonal). -/
def allWindows (b : Board) : List (List Int) :=
  ((List.range ROWS).flatMap fun row => (List.range (COLS - 3)).map fun col =>
    (List.range 4).map fun i => getCell b row (col + i)) ++
  ((List.range COLS).flatMap fun col => (List.range (ROWS - 3)).map fun row =>
    (List.range 4).map fun i => getCell b (row + i) col) ++
  ((List.range (ROWS - 3)).flatMap fun row => (List.range (COLS - 3)).map fun col =>
    (List.range 4).map fun i => getCell b (row + i) (col + i)) ++
  ((List.range' 3 (ROWS - 3)).flatMap fun row => (List.range (COLS - 3)).map fun col =>
    (List.range 4).map fun i => getCell b (row - i) (col + i))

/-- Embedding of `heuristic(board)`: over every window, add the engine's
`count_sequence` and subtract the opponent's. -/
def heuristic (b : Board) : Int :=
  ((allWindows b).map fun line =>
    count_sequence line AI_PLAYER - count_sequence line HUMAN_PLAYER).sum

/-- Search values: the integers extended with `-inf` (`⊥`) and `+inf`
(`⊤`), the only uses the source makes of `float`. -/
abbrev XInt := WithBot (WithTop ℤ)

/-- Embeds an integer score into the extended value type. -/
def toX (n : ℤ) : XInt := ((n : WithTop ℤ) : XInt)

mutual

/-- Embedding of `max_value(board, alpha, beta, depth)` of `P4.py`,
parametrized by the move-ordering function `ord` used at each node (the
source instantiates `ord := prioritize_moves`, see `max_value`). -/
def maxv (ord : Board → List Nat) (b : Board) (alpha beta : XInt)
    (depth : Nat) : XInt :=
  if Terminal_Test b = true then toX (Utility b)
  else match depth with
  | 0 => toX (heuristic b)
  | e + 1 => maxLoopv ord b (ord b) alpha beta ⊥ e
termination_by (depth, 0)

/-- Loop of `max_value`: `v = max(v, min_value(child)); alpha =
max(alpha, v); if v >= beta: return v`. -/
def maxLoopv (ord : Board → List Nat) (b : Board) (cols : List Nat)
    (alpha beta v : XInt) (e : Nat) : XInt :=
  match cols with
  | [] => v
  | col :: rest =>
    let v' := max v (minv ord (drop_piece b col AI_PLAYER).1 alpha beta e)
    if beta ≤ v' then v'
    else maxLoopv ord b rest (max alpha v') beta v' e
termination_by (e, cols.length + 1)

/-- Embedding of `min_value(board, alpha, beta, depth)` of `P4.py`,
parametrized by the move ordering like `maxv`. -/
def minv (ord : Board → List Nat) (b : Board) (alpha beta : XInt)
    (depth : Nat) : XInt :=
  if Terminal_Test b = true then toX (Utility b)
  else match depth with
  | 0 => toX (heuristic b)
  | e + 1 => minLoopv ord b (ord b) alpha beta ⊤ e
termination_by (depth, 0)

/-- Loop of `min_value`: `v = min(v, max_value(child)); beta =
min(beta, v); if v <= alpha: return v`. -/
def minLoopv (ord : Board → List Nat) (b : Board) (cols : List Nat)
    (alpha beta v : XInt) (e : Nat) : XInt :=
  match cols with
  | [] => v
  | col :: rest =>
    let v' := min v (maxv ord (drop_piece b col HUMAN_PLAYER).1 alpha beta e)
    if v' ≤ alpha then v'
    else minLoopv ord b rest alpha (min beta v') v' e
termination_by (e, cols.length + 1)

end

/-- The source's `max_value`: `maxv` with the source's move ordering
`prioritize_moves`. -/
def max_value : Board → XInt → XInt → Nat → XInt := maxv prioritize_moves

/-- The source's `min_value`: `minv` with the source's move ordering
`prioritize_moves`. -/
def min_value : Board → XInt → XInt → Nat → XInt := minv prioritize_moves

mutual

/-- Plain minimax without pruning at a maximizing node: same leaves as
`max_value`, children enumerated by `get_valid_moves` in ascending
column order, combined by `max` with no cutoff. -/
def maxp (b : Board) (depth : Nat) : XInt :=
  if Terminal_Test b = true then toX (Utility b)
  else match depth with
  | 0 => toX (heuristic b)
  | e + 1 =>
    ((get_valid_moves b).map fun col =>
      minp (drop_piece b col AI_PLAYER).1 e).foldl max ⊥
termination_by (depth, 0)

/-- Plain minimax without pruning at a minimizing node. -/
def minp (b : Board) (depth : Nat) : XInt :=
  if Terminal_Test b = true then toX (Utility b)
  else match depth with
  | 0 => toX (heuristic b)
  | e + 1 =>
    ((get_valid_moves b).map fun col =>
      maxp (drop_piece b col HUMAN_PLAYER).1 e).foldl min ⊤
termination_by (depth, 0)

end

/-- Decision loop of `IA_Decision(board)`: evaluate each ordered move
with the full window, keep the first strictly best one; `fuel` is the
number of loop iterations the 9-second wall clock still allows after the
current one (the source checks the clock after each evaluation, so at
least one move is always evaluated). -/
def IA_loop (b : Board) (depth : Nat) :
    List Nat → Nat → XInt → Option Nat → Option Nat
  | [], _, _, best => best
  | col :: rest, fuel, bestVal, best =>
    let value := min_value (drop_piece b col AI_PLAYER).1 ⊥ ⊤ (depth - 1)
    let bestVal' := if bestVal < value then value else bestVal
    let best' := if bestVal < value then some col else best
    match fuel with
    | 0 => best'
    | f + 1 => IA_loop b depth rest f bestVal' best'

/-- Embedding of `IA_Decision(board)` of `P4.py`, with the search depth
(`MAX_DEPTH = 6` in the source) and the time budget (`fuel`) explicit,
and `random.choice` abstracted by `pick` (any function returning an
element of its argument; it raises, i.e. returns `none`, on `[]`). -/
def IA_Decision (pick : List Nat → Option Nat) (b : Board)
    (depth fuel : Nat) : Option Nat :=
  match IA_loop b depth (prioritize_moves b) fuel ⊥ none with
  | some c => some c
  | none => pick (get_valid_moves b)

/-- Alternating legal play: apply the moves in order for the alternating
players starting with `p`, refusing a move when the position is already
terminal or the column is not legal.  This is the board-reachability
notion of the spec ("alternating legal play with no four-in-a-row"). -/
def playSeq : Board → Int → List Nat → Option Board
  | b, _, [] => some b
  | b, p, c :: rest =>
    if Terminal_Test b = false ∧ is_valid_move b c = true then
      playSeq (drop_piece b c p).1 (-p) rest
    else none

/-- The all-`EMPTY` starting board (`[[EMPTY]*COLS for _ in range(ROWS)]`). -/
def emptyBoard : Board := List.replicate ROWS (List.replicate COLS EMPTY)

/-- The board of `test_blocking_threat`: the opponent holds row 5,
columns 0, 1 and 2, everything else is empty. -/
def threatBoard : Board :=
  [ [0, 0, 0, 0, 0, 0, 0, 0, 0, 0, 0, 0],
    [0, 0, 0, 0, 0, 0, 0, 0, 0, 0, 0, 0],
    [0, 0, 0, 0, 0, 0, 0, 0, 0, 0, 0, 0],
    [0, 0, 0, 0, 0, 0, 0, 0, 0, 0, 0, 0],
    [0, 0, 0, 0, 0, 0, 0, 0, 0, 0, 0, 0],
    [-1, -1, -1, 0, 0, 0, 0, 0, 0, 0, 0, 0] ]

/-- A full board entirely of engine pieces (a board, not a reachable
position), used to separate `is_board_full` from the draw predicate. -/
def fullAI : Board := List.replicate ROWS (List.replicate COLS AI_PLAYER)

/-- Move sequence reaching `openThreesBoard` by alternating legal play:
each column pair gets an engine piece below an opponent piece. -/
def openThreesMoves : List Nat :=
  [0, 0, 1, 1, 2, 2, 4, 4, 5, 5, 6, 6, 8, 8, 9, 9, 10, 10]

/-- A reachable, non-terminal board in which both players hold six open
three-in-a-rows (rows 5 and 4, with gaps at columns 3, 7 and 11). -/
def openThreesBoard : Board :=
  [ [0, 0, 0, 0, 0, 0, 0, 0, 0, 0, 0, 0],
    [0, 0, 0, 0, 0, 0, 0, 0, 0, 0, 0, 0],
    [0, 0, 0, 0, 0, 0, 0, 0, 0, 0, 0, 0],
    [0, 0, 0, 0, 0, 0, 0, 0, 0, 0, 0, 0],
    [-1, -1, -1, 0, -1, -1, -1, 0, -1, -1, -1, 0],
    [1, 1, 1, 0, 1, 1, 1, 0, 1, 1, 1, 0] ]

/-- Doubled distance of a column from the geometric center (5.5) of the
12 columns, the "distance from the board's center column" ordering the
spec describes (doubled to stay in the integers). -/
def centerDist (c : Nat) : Nat := (2 * (c : Int) - 11).natAbs

/-- Deterministic stand-in for `random.choice` used in witnesses: the
head of the list, `none` (an exception) on the empty list. -/
def pickHead (l : List Nat) : Option Nat := l.head?

/-! Basic facts about the extended value type. -/

theorem toX_le_toX {a b : ℤ} : toX a ≤ toX b ↔ a ≤ b := by
  unfold toX
  rw [WithBot.coe_le_coe, WithTop.coe_le_coe]

theorem bot_lt_toX (n : ℤ) : (⊥ : XInt) < toX n :=
  WithBot.bot_lt_coe _

theorem toX_lt_top (n : ℤ) : toX n < ⊤ := by
  unfold toX
  rw [← WithBot.coe_top]
  exact WithBot.coe_lt_coe.2 (WithTop.coe_lt_top n)

/-! Permutation facts about the move orderer. -/

theorem centerKey_lt_seven (x : Nat) : centerKey x < 7 :=
  lt_of_le_of_lt (List.findIdx_le_length _) (by norm_num)

theorem count_filter_neg {α : Type} [BEq α] [LawfulBEq α] {p : α → Bool}
    {a : α} {l : List α} (h : p a = false) :
    List.count a (List.filter p l) = 0 := by
  rw [List.count_eq_zero]
  intro hmem
  rw [List.mem_filter] at hmem
  rw [hmem.2] at h
  simp at h

theorem sum_indicator_range (key c : Nat) :
    ∀ n, key < n →
      ((List.range n).map fun k => if key = k then c else 0).sum = c := by
  intro n
  induction n with
  | zero => intro h; omega
  | succ m ih =>
    intro h
    rw [List.range_succ, List.map_append, List.sum_append]
    by_cases hk : key = m
    · subst hk
      have hzero : ((List.range key).map fun k => if key = k then c else 0).sum = 0 := by
        apply List.sum_eq_zero
        intro x hx
        rw [List.mem_map] at hx
        obtain ⟨k, hk1, hk2⟩ := hx
        rw [List.mem_range] at hk1
        rw [← hk2, if_neg (by omega)]
      rw [hzero]
      simp
    · rw [ih (by omega)]
      simp [hk]

theorem bucketSortCenter_perm (l : List Nat) : (bucketSortCenter l).Perm l := by
  rw [List.perm_iff_count]
  intro a
  unfold bucketSortCenter
  rw [List.flatMap_def, List.count_flatten, List.map_map]
  have hmap : (List.range 7).map
      (List.count a ∘ fun k => l.filter fun x => decide (centerKey x = k)) =
      (List.range 7).map fun k => if centerKey a = k then List.count a l else 0 := by
    apply List.map_congr_left
    intro k _
    by_cases hk : centerKey a = k
    · rw [Function.comp_apply, List.count_filter (by simp [hk]), if_pos hk]
    · rw [Function.comp_apply, count_filter_neg (by simp [hk]), if_neg hk]
  rw [hmap, sum_indicator_range _ _ _ (centerKey_lt_seven a)]

theorem prioritize_moves_perm (b : Board) :
    (prioritize_moves b).Perm (get_valid_moves b) := by
  unfold prioritize_moves
  rw [List.perm_iff_count]
  intro a
  simp only [List.count_append]
  rw [(bucketSortCenter_perm _).count_eq]
  by_cases hA : check_immediate_threat b AI_PLAYER a = true
  · rw [List.count_filter (by simp [hA]),
      count_filter_neg (by simp [hA]), count_filter_neg (by simp [hA])]
    omega
  · rw [Bool.not_eq_true] at hA
    rw [count_filter_neg (by simp [hA])]
    by_cases hH : check_immediate_threat b HUMAN_PLAYER a = true
    · rw [List.count_filter (by simp [hA, hH]), count_filter_neg (by simp [hA, hH])]
      omega
    · rw [Bool.not_eq_true] at hH
      rw [count_filter_neg (by simp [hA, hH]), List.count_filter (by simp [hA, hH])]
      omega

theorem mem_valid_is_valid {b : Board} {c : Nat}
    (h : c ∈ get_valid_moves b) : is_valid_move b c = true := by
  unfold get_valid_moves at h
  exact (List.mem_filter.1 h).2

theorem valid_ne_nil_of_not_full {b : Board}
    (h : is_board_full b = false) : get_valid_moves b ≠ [] := by
  unfold is_board_full at h
  rw [Bool.eq_false_iff, Ne, List.all_eq_true] at h
  push_neg at h
  obtain ⟨c, hc1, hc2⟩ := h
  have hc1' : c < COLS := List.mem_range.1 hc1
  have hcell : (getCell b 0 c == EMPTY) = true := by
    cases hcc : (getCell b 0 c == EMPTY) with
    | true => rfl
    | false => exact absurd (by simp [hcc]) hc2
  have hcv : c ∈ get_valid_moves b := by
    unfold get_valid_moves
    rw [List.mem_filter]
    refine ⟨hc1, ?_⟩
    unfold is_valid_move
    simp [hc1', hcell]
  intro hnil
  rw [hnil] at hcv
  exact List.not_mem_nil _ hcv

theorem prioritize_ne_nil_of_not_terminal {b : Board}
    (h : Terminal_Test b = false) : prioritize_moves b ≠ [] := by
  unfold Terminal_Test at h
  simp only [Bool.or_eq_false_iff] at h
  have hvalid := valid_ne_nil_of_not_full h.2
  intro hnil
  have := (prioritize_moves_perm b).length_eq
  rw [hnil] at this
  exact hvalid (List.eq_nil_of_length_eq_zero this.symm)

/-! Bounds on the heuristic.  Per 4-cell window, the engine's
`count_sequence` is non-negative and the opponent's is at most 10 (the
opponent's open three is awarded `-1000`, which after the subtraction in
`heuristic` becomes `+1000`), so the whole heuristic is at least
`-10 * 144 = -1440` on every board. -/

theorem csAward_AI_nonneg (count empty : Nat) : 0 ≤ csAward AI_PLAYER count empty := by
  unfold csAward AI_PLAYER
  split_ifs <;> omega

theorem csGo_AI_ge (l : List Int) :
    ∀ count empty acc, acc ≤ csGo AI_PLAYER l count empty acc := by
  induction l with
  | nil =>
    intro count empty acc
    unfold csGo
    have := csAward_AI_nonneg count empty
    omega
  | cons cell rest ih =>
    intro count empty acc
    unfold csGo
    split_ifs with h1 h2
    · exact ih _ _ _
    · exact ih _ _ _
    · calc acc ≤ acc + csAward AI_PLAYER count empty := by
            have := csAward_AI_nonneg count empty; omega
        _ ≤ _ := ih _ _ _

theorem count_sequence_AI_nonneg (l : List Int) :
    0 ≤ count_sequence l AI_PLAYER := by
  unfold count_sequence
  exact csGo_AI_ge l 0 0 0

theorem csAward_H_le_ten (count empty : Nat) (h : count + empty ≤ 4) :
    csAward HUMAN_PLAYER count empty ≤ 10 := by
  unfold csAward AI_PLAYER HUMAN_PLAYER
  split_ifs <;> first | omega | simp_all

theorem csAward_H_zero (count empty : Nat) (h : count + empty ≤ 3) :
    csAward HUMAN_PLAYER count empty = 0 := by
  unfold csAward AI_PLAYER HUMAN_PLAYER
  split_ifs <;> omega

theorem csGo_H_le (l : List Int) :
    ∀ count empty acc, count + empty + l.length ≤ 4 →
      csGo HUMAN_PLAYER l count empty acc ≤ acc + 10 := by
  induction l with
  | nil =>
    intro count empty acc h
    unfold csGo
    have := csAward_H_le_ten count empty (by simpa using h)
    omega
  | cons cell rest ih =>
    intro count empty acc h
    simp only [List.length_cons] at h
    unfold csGo
    split_ifs with h1 h2
    · exact ih _ _ _ (by omega)
    · exact ih _ _ _ (by omega)
    · rw [csAward_H_zero count empty (by omega), add_zero]
      exact ih _ _ _ (by omega)

theorem count_sequence_H_le (l : List Int) (h : l.length ≤ 4) :
    count_sequence l HUMAN_PLAYER ≤ 10 := by
  unfold count_sequence
  have := csGo_H_le l 0 0 0 (by omega)
  omega

theorem allWindows_length_four (b : Board) :
    ∀ w ∈ allWindows b, w.length = 4 := by
  intro w hw
  unfold allWindows at hw
  simp only [List.mem_append, List.mem_flatMap, List.mem_map] at hw
  rcases hw with ((⟨r, _, c, _, hw⟩ | ⟨r, _, c, _, hw⟩) | ⟨r, _, c, _, hw⟩) | ⟨r, _, c, _, hw⟩ <;>
    rw [← hw] <;> simp

theorem sum_ge_of_forall_ge (l : List ℤ) (c : ℤ)
    (h : ∀ x ∈ l, c ≤ x) : c * l.length ≤ l.sum := by
  induction l with
  | nil => simp
  | cons x rest ih =>
    simp only [List.sum_cons, List.length_cons]
    have h1 := h x (List.mem_cons_self _ _)
    have h2 := ih (fun y hy => h y (List.mem_cons_of_mem _ hy))
    push_cast
    nlinarith

theorem allWindows_length (b : Board) : (allWindows b).length = 144 := by
  unfold allWindows
  simp [List.length_flatMap, Function.comp, List.map_const]
  rfl

theorem heuristic_ge (b : Board) : -1440 ≤ heuristic b := by
  unfold heuristic
  have hlen : ((allWindows b).map fun line =>
      count_sequence line AI_PLAYER - count_sequence line HUMAN_PLAYER).length = 144 := by
    rw [List.length_map, allWindows_length]
  have := sum_ge_of_forall_ge
    ((allWindows b).map fun line =>
      count_sequence line AI_PLAYER - count_sequence line HUMAN_PLAYER) (-10) ?_
  · rw [hlen] at this
    norm_num at this
    exact this
  · intro x hx
    rw [List.mem_map] at hx
    obtain ⟨w, hw, hwx⟩ := hx
    have h4 := allWindows_length_four b w hw
    have hA := count_sequence_AI_nonneg w
    have hH := count_sequence_H_le w (by omega)
    omega

/-! Unfolding equations of the search functions. -/

theorem Utility_ge (b : Board) : -10000 ≤ Utility b := by
  unfold Utility
  split_ifs <;> omega

theorem Utility_le (b : Board) : Utility b ≤ 10000 := by
  unfold Utility
  split_ifs <;> omega

theorem maxv_terminal (ord : Board → List Nat) (b : Board) (alpha beta : XInt)
    (d : Nat) (h : Terminal_Test b = true) :
    maxv ord b alpha beta d = toX (Utility b) := by
  rw [maxv.eq_def]
  simp [h]

theorem minv_terminal (ord : Board → List Nat) (b : Board) (alpha beta : XInt)
    (d : Nat) (h : Terminal_Test b = true) :
    minv ord b alpha beta d = toX (Utility b) := by
  rw [minv.eq_def]
  simp [h]

theorem maxv_zero (ord : Board → List Nat) (b : Board) (alpha beta : XInt)
    (h : Terminal_Test b = false) :
    maxv ord b alpha beta 0 = toX (heuristic b) := by
  rw [maxv.eq_def]
  simp [h]

theorem minv_zero (ord : Board → List Nat) (b : Board) (alpha beta : XInt)
    (h : Terminal_Test b = false) :
    minv ord b alpha beta 0 = toX (heuristic b) := by
  rw [minv.eq_def]
  simp [h]

theorem maxv_step (ord : Board → List Nat) (b : Board) (alpha beta : XInt)
    (e : Nat) (h : Terminal_Test b = false) :
    maxv ord b alpha beta (e + 1) = maxLoopv ord b (ord b) alpha beta ⊥ e := by
  rw [maxv.eq_def]
  simp [h]

theorem minv_step (ord : Board → List Nat) (b : Board) (alpha beta : XInt)
    (e : Nat) (h : Terminal_Test b = false) :
    minv ord b alpha beta (e + 1) = minLoopv ord b (ord b) alpha beta ⊤ e := by
  rw [minv.eq_def]
  simp [h]

theorem maxLoopv_nil (ord : Board → List Nat) (b : Board) (alpha beta v : XInt)
    (e : Nat) : maxLoopv ord b [] alpha beta v e = v := by
  rw [maxLoopv.eq_def]

theorem maxLoopv_cons (ord : Board → List Nat) (b : Board) (col : Nat)
    (rest : List Nat) (alpha beta v : XInt) (e : Nat) :
    maxLoopv ord b (col :: rest) alpha beta v e =
      (if beta ≤ max v (minv ord (drop_piece b col AI_PLAYER).1 alpha beta e) then
        max v (minv ord (drop_piece b col AI_PLAYER).1 alpha beta e)
      else maxLoopv ord b rest
        (max alpha (max v (minv ord (drop_piece b col AI_PLAYER).1 alpha beta e)))
        beta (max v (minv ord (drop_piece b col AI_PLAYER).1 alpha beta e)) e) := by
  rw [maxLoopv.eq_def]

theorem minLoopv_nil (ord : Board → List Nat) (b : Board) (alpha beta v : XInt)
    (e : Nat) : minLoopv ord b [] alpha beta v e = v := by
  rw [minLoopv.eq_def]

theorem minLoopv_cons (ord : Board → List Nat) (b : Board) (col : Nat)
    (rest : List Nat) (alpha beta v : XInt) (e : Nat) :
    minLoopv ord b (col :: rest) alpha beta v e =
      (if min v (maxv ord (drop_piece b col HUMAN_PLAYER).1 alpha beta e) ≤ alpha then
        min v (maxv ord (drop_piece b col HUMAN_PLAYER).1 alpha beta e)
      else minLoopv ord b rest alpha
        (min beta (min v (maxv ord (drop_piece b col HUMAN_PLAYER).1 alpha beta e)))
        (min v (maxv ord (drop_piece b col HUMAN_PLAYER).1 alpha beta e)) e) := by
  rw [minLoopv.eq_def]

theorem maxp_terminal (b : Board) (d : Nat) (h : Terminal_Test b = true) :
    maxp b d = toX (Utility b) := by
  rw [maxp.eq_def]
  simp [h]

theorem minp_terminal (b : Board) (d : Nat) (h : Terminal_Test b = true) :
    minp b d = toX (Utility b) := by
  rw [minp.eq_def]
  simp [h]

theorem maxp_zero (b : Board) (h : Terminal_Test b = false) :
    maxp b 0 = toX (heuristic b) := by
  rw [maxp.eq_def]
  simp [h]

theorem minp_zero (b : Board) (h : Terminal_Test b = false) :
    minp b 0 = toX (heuristic b) := by
  rw [minp.eq_def]
  simp [h]

theorem maxp_step (b : Board) (e : Nat) (h : Terminal_Test b = false) :
    maxp b (e + 1) =
      ((get_valid_moves b).map fun col =>
        minp (drop_piece b col AI_PLAYER).1 e).foldl max ⊥ := by
  rw [maxp.eq_def]
  simp [h]

theorem minp_step (b : Board) (e : Nat) (h : Terminal_Test b = false) :
    minp b (e + 1) =
      ((get_valid_moves b).map fun col =>
        maxp (drop_piece b col HUMAN_PLAYER).1 e).foldl min ⊤ := by
  rw [minp.eq_def]
  simp [h]

/-! Lower bound: every value the search returns is at least
`toX (-10000)`, because every leaf (utility or heuristic) is. -/

theorem leaf_max_LB (b : Board) (d : Nat) (ord : Board → List Nat)
    (alpha beta : XInt) (ht : Terminal_Test b = true) :
    toX (-10000) ≤ maxv ord b alpha beta d := by
  rw [maxv_terminal ord b alpha beta d ht]
  exact toX_le_toX.2 (Utility_ge b)

theorem heuristic_LB (b : Board) : toX (-10000) ≤ toX (heuristic b) :=
  toX_le_toX.2 (le_trans (by norm_num) (heuristic_ge b))

theorem maxLoopvLB (ord : Board → List Nat) (e : Nat)
    (hmin : ∀ b alpha beta, toX (-10000) ≤ minv ord b alpha beta e) :
    ∀ cols b alpha beta v, (cols ≠ [] ∨ toX (-10000) ≤ v) →
      toX (-10000) ≤ maxLoopv ord b cols alpha beta v e := by
  intro cols
  induction cols with
  | nil =>
    intro b alpha beta v h
    rw [maxLoopv_nil]
    rcases h with h | h
    · exact absurd rfl h
    · exact h
  | cons col rest ih =>
    intro b alpha beta v h
    rw [maxLoopv_cons]
    have hv : toX (-10000) ≤ max v (minv ord (drop_piece b col AI_PLAYER).1 alpha beta e) :=
      le_trans (hmin _ _ _) (le_max_right _ _)
    split_ifs
    · exact hv
    · exact ih b _ beta _ (Or.inr hv)

theorem minLoopvLB (ord : Board → List Nat) (e : Nat)
    (hmax : ∀ b alpha beta, toX (-10000) ≤ maxv ord b alpha beta e) :
    ∀ cols b alpha beta v, toX (-10000) ≤ v →
      toX (-10000) ≤ minLoopv ord b cols alpha beta v e := by
  intro cols
  induction cols with
  | nil =>
    intro b alpha beta v h
    rw [minLoopv_nil]
    exact h
  | cons col rest ih =>
    intro b alpha beta v h
    rw [minLoopv_cons]
    have hv : toX (-10000) ≤ min v (maxv ord (drop_piece b col HUMAN_PLAYER).1 alpha beta e) :=
      le_min h (hmax _ _ _)
    split_ifs
    · exact hv
    · exact ih b alpha _ _ hv

theorem searchLB (ord : Board → List Nat)
    (hord : ∀ b, (ord b).Perm (get_valid_moves b)) :
    ∀ d b alpha beta, toX (-10000) ≤ maxv ord b alpha beta d ∧
      toX (-10000) ≤ minv ord b alpha beta d := by
  intro d
  induction d with
  | zero =>
    intro b alpha beta
    by_cases ht : Terminal_Test b = true
    · exact ⟨leaf_max_LB b 0 ord alpha beta ht, by
        rw [minv_terminal ord b alpha beta 0 ht]
        exact toX_le_toX.2 (Utility_ge b)⟩
    · rw [Bool.not_eq_true] at ht
      rw [maxv_zero ord b alpha beta ht, minv_zero ord b alpha beta ht]
      exact ⟨heuristic_LB b, heuristic_LB b⟩
  | succ e ih =>
    intro b alpha beta
    by_cases ht : Terminal_Test b = true
    · exact ⟨leaf_max_LB b (e+1) ord alpha beta ht, by
        rw [minv_terminal ord b alpha beta (e+1) ht]
        exact toX_le_toX.2 (Utility_ge b)⟩
    · rw [Bool.not_eq_true] at ht
      rw [maxv_step ord b alpha beta e ht, minv_step ord b alpha beta e ht]
      constructor
      · apply maxLoopvLB ord e (fun b a bt => (ih b a bt).2)
        left
        intro hnil
        have hvne : get_valid_moves b ≠ [] := by
          unfold Terminal_Test at ht
          simp only [Bool.or_eq_false_iff] at ht
          exact valid_ne_nil_of_not_full ht.2
        have := (hord b).length_eq
        rw [hnil] at this
        exact hvne (List.eq_nil_of_length_eq_zero this.symm)
      · exact minLoopvLB ord e (fun b a bt => (ih b a bt).1) _ b alpha beta ⊤ le_top

/-! The decision loop of `IA_Decision`. -/

theorem IA_loop_cons_zero (b : Board) (depth col : Nat) (rest : List Nat)
    (bv : XInt) (best : Option Nat) :
    IA_loop b depth (col :: rest) 0 bv best =
      (if bv < min_value (drop_piece b col AI_PLAYER).1 ⊥ ⊤ (depth - 1) then some col
       else best) := rfl

theorem IA_loop_cons_succ (b : Board) (depth col f : Nat) (rest : List Nat)
    (bv : XInt) (best : Option Nat) :
    IA_loop b depth (col :: rest) (f + 1) bv best =
      IA_loop b depth rest f
        (if bv < min_value (drop_piece b col AI_PLAYER).1 ⊥ ⊤ (depth - 1) then
          min_value (drop_piece b col AI_PLAYER).1 ⊥ ⊤ (depth - 1)
         else bv)
        (if bv < min_value (drop_piece b col AI_PLAYER).1 ⊥ ⊤ (depth - 1) then some col
         else best) := rfl

theorem IA_loop_keeps (b : Board) (depth : Nat) :
    ∀ cols fuel bv m,
      (∀ c ∈ cols, min_value (drop_piece b c AI_PLAYER).1 ⊥ ⊤ (depth - 1) ≤ bv) →
      IA_loop b depth cols fuel bv (some m) = some m := by
  intro cols
  induction cols with
  | nil => intro fuel bv m _; rfl
  | cons col rest ih =>
    intro fuel bv m h
    have hc := h col (List.mem_cons_self _ _)
    have hnlt : ¬ bv < min_value (drop_piece b col AI_PLAYER).1 ⊥ ⊤ (depth - 1) :=
      not_lt.2 hc
    simp only [IA_loop, if_neg hnlt]
    cases fuel with
    | zero => rfl
    | succ f => exact ih f bv m (fun c hcr => h c (List.mem_cons_of_mem _ hcr))

theorem IA_loop_stays_some (b : Board) (depth : Nat) :
    ∀ cols fuel bv m, ∃ mm, IA_loop b depth cols fuel bv (some m) = some mm ∧
      (mm = m ∨ mm ∈ cols) := by
  intro cols
  induction cols with
  | nil => intro fuel bv m; exact ⟨m, rfl, Or.inl rfl⟩
  | cons col rest ih =>
    intro fuel bv m
    simp only [IA_loop]
    by_cases hlt : bv < min_value (drop_piece b col AI_PLAYER).1 ⊥ ⊤ (depth - 1)
    · rw [if_pos hlt, if_pos hlt]
      cases fuel with
      | zero => exact ⟨col, rfl, Or.inr (List.mem_cons_self _ _)⟩
      | succ f =>
        obtain ⟨mm, h1, h2⟩ := ih f _ col
        refine ⟨mm, h1, ?_⟩
        rcases h2 with h2 | h2
        · exact Or.inr (h2 ▸ List.mem_cons_self _ _)
        · exact Or.inr (List.mem_cons_of_mem _ h2)
    · rw [if_neg hlt, if_neg hlt]
      cases fuel with
      | zero => exact ⟨m, rfl, Or.inl rfl⟩
      | succ f =>
        obtain ⟨mm, h1, h2⟩ := ih f _ m
        refine ⟨mm, h1, ?_⟩
        rcases h2 with h2 | h2
        · exact Or.inl h2
        · exact Or.inr (List.mem_cons_of_mem _ h2)

/-- C1: on every board satisfying the gravity invariant, `IA_Decision`
returns a legal column (top cell `EMPTY`, index in `[0, COLS)`) whenever
at least one legal move exists — whatever the time budget (`fuel`) is,
since the wall clock is only checked after an evaluation completes — and
it fails (the `random.choice` fallback raises on an empty list) exactly
when no legal move exists.  `pick` is any model of `random.choice`. -/
theorem C1_decision_legal (pick : List Nat → Option Nat)
    (hpick : ∀ l x, pick l = some x → x ∈ l)
    (b : Board) (depth fuel : Nat) (hg : gravity b) (hd : 1 ≤ depth) :
    (get_valid_moves b = [] → IA_Decision pick b depth fuel = none) ∧
    (get_valid_moves b ≠ [] → ∃ c, IA_Decision pick b depth fuel = some c ∧
      is_valid_move b c = true) := by
  constructor
  · intro hnil
    have hpnil : prioritize_moves b = [] := by
      have := (prioritize_moves_perm b).length_eq
      rw [hnil] at this
      exact List.eq_nil_of_length_eq_zero this
    unfold IA_Decision
    rw [hpnil]
    show (match (none : Option Nat) with
      | some c => some c
      | none => pick (get_valid_moves b)) = none
    rw [hnil]
    cases hp : pick [] with
    | none => rfl
    | some x => exact absurd (hpick [] x hp) (List.not_mem_nil x)
  · intro hne
    have hpne : prioritize_moves b ≠ [] := by
      intro hnil
      have := (prioritize_moves_perm b).length_eq
      rw [hnil] at this
      exact hne (List.eq_nil_of_length_eq_zero this.symm)
    obtain ⟨c0, rest, hcons⟩ := List.exists_cons_of_ne_nil hpne
    have hLB : toX (-10000) ≤
        min_value (drop_piece b c0 AI_PLAYER).1 ⊥ ⊤ (depth - 1) :=
      (searchLB prioritize_moves prioritize_moves_perm (depth - 1) _ ⊥ ⊤).2
    have hlt : (⊥ : XInt) < min_value (drop_piece b c0 AI_PLAYER).1 ⊥ ⊤ (depth - 1) :=
      lt_of_lt_of_le (bot_lt_toX _) hLB
    unfold IA_Decision
    rw [hcons]
    cases fuel with
    | zero =>
      simp only [IA_loop, if_pos hlt]
      refine ⟨c0, rfl, ?_⟩
      have hmmp : c0 ∈ prioritize_moves b := hcons ▸ List.mem_cons_self _ _
      exact mem_valid_is_valid ((prioritize_moves_perm b).mem_iff.1 hmmp)
    | succ f =>
      simp only [IA_loop, if_pos hlt]
      obtain ⟨mm, h1, h2⟩ := IA_loop_stays_some b depth rest f
        (min_value (drop_piece b c0 AI_PLAYER).1 ⊥ ⊤ (depth - 1)) c0
      rw [h1]
      refine ⟨mm, rfl, ?_⟩
      have hmmp : mm ∈ prioritize_moves b := by
        rw [hcons]
        rcases h2 with h2 | h2
        · exact h2 ▸ List.mem_cons_self _ _
        · exact List.mem_cons_of_mem _ h2
      exact mem_valid_is_valid ((prioritize_moves_perm b).mem_iff.1 hmmp)

/-- C1 witness: on the empty board (which satisfies gravity) with the
head-of-list model of `random.choice`, the decision is a legal column. -/
theorem C1_witness :
    gravity emptyBoard ∧ 1 ≤ 6 ∧
      ∃ c, IA_Decision pickHead emptyBoard 6 0 = some c ∧
        is_valid_move emptyBoard c = true := by
  have hpick : ∀ l x, pickHead l = some x → x ∈ l := by
    intro l x h
    unfold pickHead at h
    exact List.mem_of_mem_head? (by rw [h]; exact rfl)
  have hg : gravity emptyBoard := by decide
  exact ⟨hg, by norm_num,
    (C1_decision_legal pickHead hpick emptyBoard 6 0 hg (by norm_num)).2
      (by decide)⟩

/-! Bounding a minimizing node by one of its children: used to show that
any engine move that leaves the opponent an immediate win is valued at
most `-10000`. -/

theorem minLoopv_le_base (ord : Board → List Nat) (e : Nat) :
    ∀ cols b alpha beta v, minLoopv ord b cols alpha beta v e ≤ v := by
  intro cols
  induction cols with
  | nil => intro b alpha beta v; rw [minLoopv_nil]
  | cons col rest ih =>
    intro b alpha beta v
    rw [minLoopv_cons]
    split_ifs
    · exact min_le_left _ _
    · exact le_trans (ih _ _ _ _) (min_le_left _ _)

theorem minLoopv_le_of_mem (ord : Board → List Nat) (e : Nat) (M : XInt) :
    ∀ cols b alpha beta v c, c ∈ cols → alpha ≤ M →
      (∀ beta2, maxv ord (drop_piece b c HUMAN_PLAYER).1 alpha beta2 e ≤ M) →
      minLoopv ord b cols alpha beta v e ≤ M := by
  intro cols
  induction cols with
  | nil => intro b alpha beta v c hc; exact absurd hc (List.not_mem_nil c)
  | cons col rest ih =>
    intro b alpha beta v c hc halpha hchild
    rw [minLoopv_cons]
    by_cases hceq : c = col
    · subst hceq
      have hv : min v (maxv ord (drop_piece b c HUMAN_PLAYER).1 alpha beta e) ≤ M :=
        le_trans (min_le_right _ _) (hchild beta)
      split_ifs
      · exact hv
      · exact le_trans (minLoopv_le_base ord e _ _ _ _ _) hv
    · have hcr : c ∈ rest := by
        rcases List.mem_cons.1 hc with h | h
        · exact absurd h hceq
        · exact h
      split_ifs with hprune
      · exact le_trans hprune halpha
      · exact ih _ alpha _ _ c hcr halpha hchild

theorem blocked_child_value_le (b : Board) (c block : Nat) (k : Nat)
    (h1 : Terminal_Test (drop_piece b c AI_PLAYER).1 = false)
    (h2 : block ∈ prioritize_moves (drop_piece b c AI_PLAYER).1)
    (h3 : Terminal_Test
      (drop_piece (drop_piece b c AI_PLAYER).1 block HUMAN_PLAYER).1 = true)
    (h4 : Utility
      (drop_piece (drop_piece b c AI_PLAYER).1 block HUMAN_PLAYER).1 = -10000) :
    min_value (drop_piece b c AI_PLAYER).1 ⊥ ⊤ (k + 1) ≤ toX (-10000) := by
  show minv prioritize_moves _ ⊥ ⊤ (k + 1) ≤ toX (-10000)
  rw [minv_step prioritize_moves _ ⊥ ⊤ k h1]
  apply minLoopv_le_of_mem prioritize_moves k (toX (-10000)) _ _ ⊥ ⊤ ⊤ block h2 bot_le
  intro beta2
  rw [maxv_terminal prioritize_moves _ ⊥ beta2 k h3, h4]

/-- C2 (amended): on the blocking-test board — opponent pieces in row 5,
columns 0 to 2, otherwise empty — `IA_Decision` returns the blocking
column 3 for every search depth of at least 2 (the shipped
`MAX_DEPTH = 6` included), whatever the time budget is.  At depth 1 the
claim fails; see the counterexample. -/
theorem C2_blocking (pick : List Nat → Option Nat) (d fuel : Nat)
    (hd : 2 ≤ d) : IA_Decision pick threatBoard d fuel = some 3 := by
  obtain ⟨k, hk⟩ : ∃ k, d = k + 2 := ⟨d - 2, by omega⟩
  subst hk
  have hpri : prioritize_moves threatBoard = [3, 5, 6, 4, 7, 8, 0, 1, 2, 9, 10, 11] := by
    decide
  have hd1 : k + 2 - 1 = k + 1 := by omega
  have hv3 : toX (-10000) ≤
      min_value (drop_piece threatBoard 3 AI_PLAYER).1 ⊥ ⊤ (k + 2 - 1) :=
    (searchLB prioritize_moves prioritize_moves_perm (k + 2 - 1) _ ⊥ ⊤).2
  have hlt : (⊥ : XInt) <
      min_value (drop_piece threatBoard 3 AI_PLAYER).1 ⊥ ⊤ (k + 2 - 1) :=
    lt_of_lt_of_le (bot_lt_toX _) hv3
  have hall : ∀ c ∈ [5, 6, 4, 7, 8, 0, 1, 2, 9, 10, 11],
      Terminal_Test (drop_piece threatBoard c AI_PLAYER).1 = false ∧
      3 ∈ prioritize_moves (drop_piece threatBoard c AI_PLAYER).1 ∧
      Terminal_Test
        (drop_piece (drop_piece threatBoard c AI_PLAYER).1 3 HUMAN_PLAYER).1 = true ∧
      Utility
        (drop_piece (drop_piece threatBoard c AI_PLAYER).1 3 HUMAN_PLAYER).1 = -10000 := by
    decide
  have hrest : ∀ c ∈ [5, 6, 4, 7, 8, 0, 1, 2, 9, 10, 11],
      min_value (drop_piece threatBoard c AI_PLAYER).1 ⊥ ⊤ (k + 2 - 1) ≤
        min_value (drop_piece threatBoard 3 AI_PLAYER).1 ⊥ ⊤ (k + 2 - 1) := by
    intro c hc
    obtain ⟨h1, h2, h3, h4⟩ := hall c hc
    rw [hd1]
    exact le_trans (blocked_child_value_le threatBoard c 3 k h1 h2 h3 h4) (hd1 ▸ hv3)
  have hloop : IA_loop threatBoard (k + 2) [3, 5, 6, 4, 7, 8, 0, 1, 2, 9, 10, 11]
      fuel ⊥ none = some 3 := by
    cases fuel with
    | zero => rw [IA_loop_cons_zero, if_pos hlt]
    | succ f =>
      rw [IA_loop_cons_succ, if_pos hlt, if_pos hlt]
      exact IA_loop_keeps threatBoard (k + 2) _ f _ 3 hrest
  unfold IA_Decision
  rw [hpri, hloop]

/-- C2 witness: depth 2 instance of the amended blocking theorem. -/
theorem C2_blocking_witness :
    2 ≤ 2 ∧ IA_Decision pickHead threatBoard 2 0 = some 3 :=
  ⟨by norm_num, C2_blocking pickHead 2 0 (by norm_num)⟩

set_option maxRecDepth 10000 in
set_option maxHeartbeats 4000000 in
unseal minv minLoopv maxv maxLoopv in
/-- C2 counterexample: at depth 1 (and full time budget) the engine
picks column 4, not the blocking column 3 — the opponent's open three
is scored `+1000` for the engine by the heuristic's sign slip, so every
non-blocking child outranks the blocking one. -/
theorem C2_depth_one_cx :
    IA_Decision pickHead threatBoard 1 11 = some 4 ∧ (4 : Nat) ≠ 3 := by
  constructor
  · decide
  · decide

/-- C6 (amended): `is_board_full` is true exactly when every column's
top cell is non-`EMPTY` — it performs no four-in-a-row check (its
callers test wins separately), so it is not the spec's draw predicate. -/
theorem C6_is_board_full_iff (b : Board) :
    is_board_full b = true ↔ ∀ c, c < COLS → getCell b 0 c ≠ EMPTY := by
  unfold is_board_full
  rw [List.all_eq_true]
  constructor
  · intro h c hc
    have := h c (List.mem_range.2 hc)
    simpa using this
  · intro h c hc
    simpa using h c (List.mem_range.1 hc)

/-- C6 counterexample: on the full board of engine pieces the engine has
four-in-a-row, yet `is_board_full` is still true, so `is_board_full`
does not agree with "full and nobody has four-in-a-row". -/
theorem C6_win_cx :
    ¬ (is_board_full fullAI = true ↔
      ((∀ c, c < COLS → getCell fullAI 0 c ≠ EMPTY) ∧
        check_win fullAI AI_PLAYER = false ∧
        check_win fullAI HUMAN_PLAYER = false)) := by
  decide

/-- C10: dropping into a full column does not fail: the scan finds no
`EMPTY` cell, the board comes back unchanged with the sentinel row `-1`,
and `check_immediate_threat` turns the sentinel into `false`. -/
theorem C10_full_column (b : Board) (col : Nat) (player : Int)
    (hfull : ∀ r, r < ROWS → getCell b r col ≠ EMPTY) :
    drop_piece b col player = (b, -1) ∧
      check_immediate_threat b player col = false := by
  have hdrop : drop_piece b col player = (b, -1) := by
    unfold drop_piece
    have hlist : (List.range ROWS).reverse = [5, 4, 3, 2, 1, 0] := by decide
    rw [hlist]
    simp only [dropAux]
    rw [if_neg (hfull 5 (by decide)), if_neg (hfull 4 (by decide)),
      if_neg (hfull 3 (by decide)), if_neg (hfull 2 (by decide)),
      if_neg (hfull 1 (by decide)), if_neg (hfull 0 (by decide))]
  refine ⟨hdrop, ?_⟩
  unfold check_immediate_threat
  rw [hdrop]
  simp

set_option maxRecDepth 10000 in
/-- C10 witness: column 0 of the all-engine board is full. -/
theorem C10_witness :
    (∀ r, r < ROWS → getCell fullAI r 0 ≠ EMPTY) ∧
      drop_piece fullAI 0 AI_PLAYER = (fullAI, -1) ∧
      check_immediate_threat fullAI AI_PLAYER 0 = false :=
  ⟨by decide, C10_full_column fullAI 0 AI_PLAYER (by decide)⟩

set_option maxRecDepth 10000 in
/-- C3: evaluation of the sign slip.  On the board where the opponent
holds an open three (row 5, columns 0 to 2), `count_sequence` returns
`-1000` for the opponent and `heuristic` then subtracts it, so the
opponent's strongest threat is worth `+1000` to the engine: the total is
`+983` where the spec's rule (opponent contributions entering with a
negative sign) demands a negative total. -/
theorem C3_sign_flip :
    heuristic threatBoard = 983 ∧ 0 < heuristic threatBoard ∧
      count_sequence [HUMAN_PLAYER, HUMAN_PLAYER, HUMAN_PLAYER, EMPTY]
        HUMAN_PLAYER = -1000 := by
  refine ⟨by decide, by decide, by decide⟩

set_option maxRecDepth 100000 in
set_option maxHeartbeats 2000000 in
/-- C4: the terminal value 10000 does not dominate the heuristic.  The
board below is reached from the empty board by 18 alternating legal
moves, is not terminal, and its heuristic value 17977 exceeds the
engine-win utility 10000 (each player's six open threes count +1000
apiece for the engine, by weight accumulation and the C3 sign slip). -/
theorem C4_no_dominance :
    playSeq emptyBoard AI_PLAYER openThreesMoves = some openThreesBoard ∧
      Terminal_Test openThreesBoard = false ∧
      heuristic openThreesBoard = 17977 ∧
      10000 ≤ |heuristic openThreesBoard| := by
  refine ⟨by decide, by decide, by decide, by decide⟩

/-- Spec-side four-in-a-row: some 4-cell window in one of the four
directions consists entirely of the player's pieces, quantifiers and
bounds written out instead of the source's loops. -/
def HasFourInRow (b : Board) (p : Int) : Prop :=
  (∃ r, r < ROWS ∧ ∃ c, c < COLS - 3 ∧ ∀ i, i < 4 → getCell b r (c + i) = p) ∨
  (∃ r, r < ROWS - 3 ∧ ∃ c, c < COLS ∧ ∀ i, i < 4 → getCell b (r + i) c = p) ∨
  (∃ r, r < ROWS - 3 ∧ ∃ c, c < COLS - 3 ∧ ∀ i, i < 4 → getCell b (r + i) (c + i) = p) ∨
  (∃ r, (3 ≤ r ∧ r < ROWS) ∧ ∃ c, c < COLS - 3 ∧ ∀ i, i < 4 → getCell b (r - i) (c + i) = p)

/-- C8: `check_win` is true exactly when some 4-cell window in one of
the four directions consists entirely of the player's pieces; in
particular a board whose longest runs have length 3 never registers. -/
theorem C8_check_win_iff (b : Board) (p : Int) :
    check_win b p = true ↔ HasFourInRow b p := by
  unfold check_win HasFourInRow
  simp only [Bool.or_eq_true, List.any_eq_true, List.all_eq_true, List.mem_range,
    List.mem_range'_1, beq_iff_eq, show 3 + (ROWS - 3) = ROWS from rfl]
  rw [or_assoc, or_assoc]

/-! Cell-level behaviour of `setCell`, used for the `applyMove` frame
conditions. -/

theorem getCell_setCell_self (b : Board) (r c : Nat) (v : Int)
    (hr : r < b.length) (hc : c < (b.getD r []).length) :
    getCell (setCell b r c v) r c = v := by
  unfold getCell setCell
  rw [show (b.set r ((b.getD r []).set c v)).getD r [] = (b.getD r []).set c v from by
    rw [List.getD_eq_getElem?_getD, List.getElem?_set_self hr]; rfl]
  rw [List.getD_eq_getElem?_getD, List.getElem?_set_self hc]
  rfl

theorem getCell_setCell_ne (b : Board) (r c r2 c2 : Nat) (v : Int)
    (h : r2 ≠ r ∨ c2 ≠ c) :
    getCell (setCell b r c v) r2 c2 = getCell b r2 c2 := by
  unfold getCell setCell
  by_cases hr2 : r2 = r
  · subst hr2
    have hc2 : c2 ≠ c := by
      rcases h with h | h
      · exact absurd rfl h
      · exact h
    by_cases hlen : r2 < b.length
    · rw [show (b.set r2 ((b.getD r2 []).set c v)).getD r2 [] = (b.getD r2 []).set c v from by
        rw [List.getD_eq_getElem?_getD, List.getElem?_set_self hlen]; rfl]
      rw [List.getD_eq_getElem?_getD, List.getElem?_set_ne (fun he => hc2 he.symm),
        ← List.getD_eq_getElem?_getD]
    · rw [List.set_eq_of_length_le (le_of_not_lt hlen)]
  · rw [show (b.set r ((b.getD r []).set c v)).getD r2 [] = b.getD r2 [] from by
      rw [List.getD_eq_getElem?_getD, List.getElem?_set_ne (fun he => hr2 he.symm),
        ← List.getD_eq_getElem?_getD]]

/-- Characterization of a successful `drop_piece`: once the landing row
`k` is known (empty cell, everything below it occupied, and the scan
result), the new board changes exactly that cell, keeps every other
cell, and preserves gravity. -/
theorem drop_char_of (b : Board) (col : Nat) (player : Int) (k : Nat)
    (hwf : WF b) (hcol : col < COLS) (hk : k < ROWS)
    (hempty : getCell b k col = EMPTY)
    (habove : ∀ r2, k < r2 → r2 < ROWS → getCell b r2 col ≠ EMPTY)
    (hdrop : drop_piece b col player = (setCell b k col player, (k : Int)))
    (hplayer : player = AI_PLAYER ∨ player = HUMAN_PLAYER) :
    k < ROWS ∧ getCell b k col = EMPTY ∧
      (∀ r2, k < r2 → r2 < ROWS → getCell b r2 col ≠ EMPTY) ∧
      drop_piece b col player = (setCell b k col player, (k : Int)) ∧
      getCell (drop_piece b col player).1 k col = player ∧
      (∀ r2 c2, ¬(r2 = k ∧ c2 = col) →
        getCell (drop_piece b col player).1 r2 c2 = getCell b r2 c2) ∧
      (gravity b → gravity (drop_piece b col player).1) := by
  have hlen : k < b.length := by rw [hwf.1]; exact hk
  have hrowlen : (b.getD k []).length = COLS := by
    rw [List.getD_eq_getElem b [] hlen]
    exact hwf.2 _ (List.getElem_mem hlen)
  have hself : getCell (setCell b k col player) k col = player :=
    getCell_setCell_self b k col player hlen (by rw [hrowlen]; exact hcol)
  have hframe : ∀ r2 c2, ¬(r2 = k ∧ c2 = col) →
      getCell (setCell b k col player) r2 c2 = getCell b r2 c2 := by
    intro r2 c2 hne
    apply getCell_setCell_ne
    by_cases hr2 : r2 = k
    · right
      intro hc2
      exact hne ⟨hr2, hc2⟩
    · left
      exact hr2
  have hpne : player ≠ EMPTY := by
    rcases hplayer with h | h <;> rw [h] <;> decide
  refine ⟨hk, hempty, habove, hdrop, by rw [hdrop]; exact hself,
    by rw [hdrop]; exact hframe, ?_⟩
  intro hg
  rw [hdrop]
  intro c2 hc2 r2 hr2 hcell
  by_cases hcc : c2 = col
  · subst hcc
    by_cases hup : r2 + 1 = k
    · rw [hup, hself]
      exact hpne
    · rw [hframe (r2 + 1) c2 (fun hand => hup hand.1)]
      by_cases hr2k : r2 = k
      · subst hr2k
        exact habove (r2 + 1) (by omega) (by omega)
      · rw [hframe r2 c2 (fun hand => hr2k hand.1)] at hcell
        exact hg c2 hc2 r2 hr2 hcell
  · rw [hframe (r2 + 1) c2 (fun hand => hcc hand.2)]
    rw [hframe r2 c2 (fun hand => hcc hand.2)] at hcell
    exact hg c2 hc2 r2 hr2 hcell

/-- C7: on a well-formed board with a legal column, `drop_piece` puts
the player's piece exactly at the lowest `EMPTY` row of the column
(returning that row), changes no other cell, and preserves the gravity
invariant; the input board is untouched (the embedding is pure, as the
source deep-copies before mutating). -/
theorem C7_apply_move (b : Board) (col : Nat) (player : Int)
    (hwf : WF b) (hlegal : is_valid_move b col = true)
    (hplayer : player = AI_PLAYER ∨ player = HUMAN_PLAYER) :
    ∃ k, k < ROWS ∧ getCell b k col = EMPTY ∧
      (∀ r2, k < r2 → r2 < ROWS → getCell b r2 col ≠ EMPTY) ∧
      drop_piece b col player = (setCell b k col player, (k : Int)) ∧
      getCell (drop_piece b col player).1 k col = player ∧
      (∀ r2 c2, ¬(r2 = k ∧ c2 = col) →
        getCell (drop_piece b col player).1 r2 c2 = getCell b r2 c2) ∧
      (gravity b → gravity (drop_piece b col player).1) := by
  have hv : col < COLS ∧ getCell b 0 col = EMPTY := by
    unfold is_valid_move at hlegal
    rw [Bool.and_eq_true, decide_eq_true_eq, beq_iff_eq] at hlegal
    exact hlegal
  have hd : drop_piece b col player = dropAux b col player [5, 4, 3, 2, 1, 0] := by
    unfold drop_piece
    rw [show (List.range ROWS).reverse = [5, 4, 3, 2, 1, 0] from by decide]
  have hR : ROWS = 6 := rfl
  by_cases h5 : getCell b 5 col = EMPTY
  · refine ⟨5, drop_char_of b col player 5 hwf hv.1 (by decide) h5 ?_
      (by rw [hd]; simp only [dropAux]; rw [if_pos h5]) hplayer⟩
    intro r2 hr1 hr2
    rw [hR] at hr2
    omega
  · by_cases h4 : getCell b 4 col = EMPTY
    · refine ⟨4, drop_char_of b col player 4 hwf hv.1 (by decide) h4 ?_
        (by rw [hd]; simp only [dropAux]; rw [if_neg h5, if_pos h4]) hplayer⟩
      intro r2 hr1 hr2
      rw [hR] at hr2
      have : r2 = 5 := by omega
      subst this
      exact h5
    · by_cases h3 : getCell b 3 col = EMPTY
      · refine ⟨3, drop_char_of b col player 3 hwf hv.1 (by decide) h3 ?_
          (by rw [hd]; simp only [dropAux]; rw [if_neg h5, if_neg h4, if_pos h3])
          hplayer⟩
        intro r2 hr1 hr2
        rw [hR] at hr2
        interval_cases r2
        · exact h4
        · exact h5
      · by_cases h2 : getCell b 2 col = EMPTY
        · refine ⟨2, drop_char_of b col player 2 hwf hv.1 (by decide) h2 ?_
            (by rw [hd]; simp only [dropAux]
                rw [if_neg h5, if_neg h4, if_neg h3, if_pos h2]) hplayer⟩
          intro r2 hr1 hr2
          rw [hR] at hr2
          interval_cases r2
          · exact h3
          · exact h4
          · exact h5
        · by_cases h1 : getCell b 1 col = EMPTY
          · refine ⟨1, drop_char_of b col player 1 hwf hv.1 (by decide) h1 ?_
              (by rw [hd]; simp only [dropAux]
                  rw [if_neg h5, if_neg h4, if_neg h3, if_neg h2, if_pos h1])
              hplayer⟩
            intro r2 hr1 hr2
            rw [hR] at hr2
            interval_cases r2
            · exact h2
            · exact h3
            · exact h4
            · exact h5
          · refine ⟨0, drop_char_of b col player 0 hwf hv.1 (by decide) hv.2 ?_
              (by rw [hd]; simp only [dropAux]
                  rw [if_neg h5, if_neg h4, if_neg h3, if_neg h2, if_neg h1,
                    if_pos hv.2]) hplayer⟩
            intro r2 hr1 hr2
            rw [hR] at hr2
            interval_cases r2
            · exact h1
            · exact h2
            · exact h3
            · exact h4
            · exact h5

/-- C7 witness: dropping an engine piece into column 0 of the empty
board lands at row 5. -/
theorem C7_witness :
    WF emptyBoard ∧ is_valid_move emptyBoard 0 = true ∧
      ∃ k, k < ROWS ∧ getCell emptyBoard k 0 = EMPTY ∧
        (∀ r2, k < r2 → r2 < ROWS → getCell emptyBoard r2 0 ≠ EMPTY) ∧
        drop_piece emptyBoard 0 AI_PLAYER = (setCell emptyBoard k 0 AI_PLAYER, (k : Int)) ∧
        getCell (drop_piece emptyBoard 0 AI_PLAYER).1 k 0 = AI_PLAYER ∧
        (∀ r2 c2, ¬(r2 = k ∧ c2 = 0) →
          getCell (drop_piece emptyBoard 0 AI_PLAYER).1 r2 c2 =
            getCell emptyBoard r2 c2) ∧
        (gravity emptyBoard → gravity (drop_piece emptyBoard 0 AI_PLAYER).1) :=
  ⟨by decide, by decide,
    C7_apply_move emptyBoard 0 AI_PLAYER (by decide) (by decide) (Or.inl rfl)⟩

/-- The bucket pass sorts by `centerKey`, ties keeping the original
(ascending) order. -/
theorem bucketSortCenter_pairwise (l : List Nat) (hl : l.Pairwise (· < ·)) :
    (bucketSortCenter l).Pairwise
      (fun a c => centerKey a < centerKey c ∨ (centerKey a = centerKey c ∧ a < c)) := by
  unfold bucketSortCenter
  rw [List.flatMap_def, List.pairwise_flatten]
  constructor
  · intro l2 hl2
    rw [List.mem_map] at hl2
    obtain ⟨k, _, hfk⟩ := hl2
    rw [← hfk]
    refine List.Pairwise.imp_of_mem ?_ (List.Pairwise.filter _ hl)
    intro a c ha hc hac
    have hka : centerKey a = k := by
      have := (List.mem_filter.1 ha).2
      exact of_decide_eq_true this
    have hkc : centerKey c = k := by
      have := (List.mem_filter.1 hc).2
      exact of_decide_eq_true this
    exact Or.inr ⟨hka.trans hkc.symm, hac⟩
  · rw [List.pairwise_map]
    refine List.Pairwise.imp_of_mem ?_ (List.pairwise_lt_range 7)
    intro k1 k2 _ _ hk x hx y hy
    have hkx : centerKey x = k1 := of_decide_eq_true (List.mem_filter.1 hx).2
    have hky : centerKey y = k2 := of_decide_eq_true (List.mem_filter.1 hy).2
    exact Or.inl (by rw [hkx, hky]; exact hk)

/-- C5 (amended): `prioritize_moves` lists exactly the legal columns:
first those where the engine immediately completes four-in-a-row, then
those where the opponent would if given the column, then the remaining
legal columns sorted by ascending position in the fixed preference list
`[5, 6, 4, 7, 3, 8]` (columns outside the list last), ties kept in
ascending original column order.  The third group is not sorted by
distance from the board's center column; see the counterexample. -/
theorem C5_move_order (b : Board) :
    ∃ rest,
      prioritize_moves b =
        ((get_valid_moves b).filter fun c => check_immediate_threat b AI_PLAYER c) ++
        ((get_valid_moves b).filter fun c =>
          !check_immediate_threat b AI_PLAYER c &&
            check_immediate_threat b HUMAN_PLAYER c) ++ rest ∧
      rest.Perm ((get_valid_moves b).filter fun c =>
        !check_immediate_threat b AI_PLAYER c &&
          !check_immediate_threat b HUMAN_PLAYER c) ∧
      rest.Pairwise
        (fun a c => centerKey a < centerKey c ∨ (centerKey a = centerKey c ∧ a < c)) ∧
      (prioritize_moves b).Perm (get_valid_moves b) := by
  refine ⟨bucketSortCenter ((get_valid_moves b).filter fun c =>
      !check_immediate_threat b AI_PLAYER c &&
        !check_immediate_threat b HUMAN_PLAYER c),
    rfl, bucketSortCenter_perm _, bucketSortCenter_pairwise _ ?_,
    prioritize_moves_perm b⟩
  apply List.Pairwise.filter
  unfold get_valid_moves
  exact List.Pairwise.filter _ (List.pairwise_lt_range COLS)

set_option maxRecDepth 10000 in
/-- C5 counterexample: on the empty board there are no winning or
blocking columns, and the code's order puts column 0 before column 2
although column 2 is strictly closer to the board's center (columns
5.5): the output is not sorted by ascending distance from the center
column. -/
theorem C5_center_cx :
    ((get_valid_moves emptyBoard).filter fun c =>
      check_immediate_threat emptyBoard AI_PLAYER c) = [] ∧
    ((get_valid_moves emptyBoard).filter fun c =>
      check_immediate_threat emptyBoard HUMAN_PLAYER c) = [] ∧
    prioritize_moves emptyBoard = [5, 6, 4, 7, 3, 8, 0, 1, 2, 9, 10, 11] ∧
    centerDist 2 < centerDist 0 ∧
    ¬ (prioritize_moves emptyBoard).Pairwise
      (fun a c => centerDist a < centerDist c ∨ (centerDist a = centerDist c ∧ a < c)) := by
  refine ⟨by decide, by decide, by decide, by decide, ?_⟩
  decide

/-! Fold algebra for plain minimax nodes. -/

theorem foldlMax_base (l : List XInt) :
    ∀ x y : XInt, l.foldl max (max x y) = max x (l.foldl max y) := by
  induction l with
  | nil => intro x y; rfl
  | cons a t ih =>
    intro x y
    simp only [List.foldl_cons]
    rw [max_assoc, ih]

theorem le_foldlMax (l : List XInt) : ∀ v : XInt, v ≤ l.foldl max v := by
  induction l with
  | nil => intro v; exact le_refl v
  | cons a t ih =>
    intro v
    simp only [List.foldl_cons]
    exact le_trans (le_max_left _ _) (ih _)

theorem foldlMax_mono (l : List XInt) :
    ∀ {v w : XInt}, v ≤ w → l.foldl max v ≤ l.foldl max w := by
  induction l with
  | nil => intro v w h; exact h
  | cons a t ih =>
    intro v w h
    simp only [List.foldl_cons]
    exact ih (max_le_max h (le_refl a))

theorem foldlMax_perm {l1 l2 : List XInt} (h : l1.Perm l2) (v : XInt) :
    l1.foldl max v = l2.foldl max v := by
  induction h generalizing v with
  | nil => rfl
  | cons a _ ih => simp only [List.foldl_cons]; exact ih _
  | swap a b l =>
    simp only [List.foldl_cons]
    rw [max_assoc, max_comm b a, max_assoc]
  | trans _ _ ih1 ih2 => exact (ih1 v).trans (ih2 v)

theorem foldlMin_base (l : List XInt) :
    ∀ x y : XInt, l.foldl min (min x y) = min x (l.foldl min y) := by
  induction l with
  | nil => intro x y; rfl
  | cons a t ih =>
    intro x y
    simp only [List.foldl_cons]
    rw [min_assoc, ih]

theorem foldlMin_le (l : List XInt) : ∀ v : XInt, l.foldl min v ≤ v := by
  induction l with
  | nil => intro v; exact le_refl v
  | cons a t ih =>
    intro v
    simp only [List.foldl_cons]
    exact le_trans (ih _) (min_le_left _ _)

theorem foldlMin_mono (l : List XInt) :
    ∀ {v w : XInt}, v ≤ w → l.foldl min v ≤ l.foldl min w := by
  induction l with
  | nil => intro v w h; exact h
  | cons a t ih =>
    intro v w h
    simp only [List.foldl_cons]
    exact ih (min_le_min h (le_refl a))

theorem foldlMin_perm {l1 l2 : List XInt} (h : l1.Perm l2) (v : XInt) :
    l1.foldl min v = l2.foldl min v := by
  induction h generalizing v with
  | nil => rfl
  | cons a _ ih => simp only [List.foldl_cons]; exact ih _
  | swap a b l =>
    simp only [List.foldl_cons]
    rw [min_assoc, min_comm b a, min_assoc]
  | trans _ _ ih1 ih2 => exact (ih1 v).trans (ih2 v)

/-- Fail-soft alpha-beta contract relative to a window: below `alpha`
the result is an upper bound on the true value, above `beta` a lower
bound, and strictly inside the window it is exact. -/
def REL (r g alpha beta : XInt) : Prop :=
  (r ≤ alpha → g ≤ r) ∧ (beta ≤ r → r ≤ g) ∧ (alpha < r → r < beta → r = g)

theorem REL_refl (r alpha beta : XInt) : REL r r alpha beta :=
  ⟨fun _ => le_refl r, fun _ => le_refl r, fun _ _ => rfl⟩

theorem REL_full_window {r g : XInt} (h : REL r g ⊥ ⊤) : r = g := by
  rcases le_or_lt r ⊥ with hb | hb
  · have hrb : r = ⊥ := le_bot_iff.1 hb
    have := h.1 hb
    rw [hrb] at this ⊢
    exact (le_bot_iff.1 this).symm
  · rcases le_or_lt (⊤ : XInt) r with ht | ht
    · have hrt : r = ⊤ := top_le_iff.1 ht
      have := h.2.1 ht
      rw [hrt] at this ⊢
      exact (top_le_iff.1 this).symm
    · exact h.2.2 hb ht

/-- Fail-soft contract of the `max_value` loop: relative to a window
`alpha < beta` with accumulator `v ≤ alpha`, the pruned loop result
satisfies `REL` against the plain `max`-fold over the same children. -/
theorem maxLoopv_spec (ord : Board → List Nat) (e : Nat)
    (IHmin : ∀ b alpha beta, alpha < beta →
      REL (minv ord b alpha beta e) (minp b e) alpha beta) :
    ∀ cols (b : Board) (alpha beta v : XInt), alpha < beta → v ≤ alpha →
      v ≤ maxLoopv ord b cols alpha beta v e ∧
      REL (maxLoopv ord b cols alpha beta v e)
        ((cols.map fun col => minp (drop_piece b col AI_PLAYER).1 e).foldl max v)
        alpha beta := by
  intro cols
  induction cols with
  | nil =>
    intro b alpha beta v hab hva
    rw [maxLoopv_nil]
    simp only [List.map_nil, List.foldl_nil]
    exact ⟨le_refl v, REL_refl v alpha beta⟩
  | cons col rest ih =>
    intro b alpha beta v hab hva
    have hchild := IHmin (drop_piece b col AI_PLAYER).1 alpha beta hab
    rw [maxLoopv_cons]
    simp only [List.map_cons, List.foldl_cons]
    set m := minv ord (drop_piece b col AI_PLAYER).1 alpha beta e with hmdef
    set g := minp (drop_piece b col AI_PLAYER).1 e with hgdef
    set P := rest.map fun col => minp (drop_piece b col AI_PLAYER).1 e with hPdef
    split_ifs with hprune
    · have hvm : max v m = m := by
        rcases max_cases v m with ⟨h1, h2⟩ | ⟨h1, h2⟩
        · rw [h1] at hprune
          exact absurd hab (not_lt.2 (le_trans hprune hva))
        · exact h1
      refine ⟨le_max_left v m, ?_, ?_, ?_⟩
      · intro hra
        exact absurd (lt_of_le_of_lt hra hab) (not_lt.2 hprune)
      · intro _
        have hmg : m ≤ g := hchild.2.1 (by rw [hvm] at hprune; exact hprune)
        calc max v m = m := hvm
          _ ≤ g := hmg
          _ ≤ max v g := le_max_right v g
          _ ≤ P.foldl max (max v g) := le_foldlMax P _
      · intro _ hrb
        exact absurd hprune (not_le.2 hrb)
    · have hvb : max v m < beta := not_le.1 hprune
      have hab2 : max alpha (max v m) < beta := max_lt hab hvb
      obtain ⟨hvr, hrel⟩ := ih b (max alpha (max v m)) beta (max v m) hab2
        (le_max_right _ _)
      refine ⟨le_trans (le_max_left v m) hvr, ?_⟩
      by_cases hma : m ≤ alpha
      · have hgm : g ≤ m := hchild.1 hma
        have hva2 : max v m ≤ alpha := max_le hva hma
        rw [max_eq_left hva2] at hrel ⊢
        set R := maxLoopv ord b rest alpha beta (max v m) e with hRdef
        have hGle : P.foldl max (max v g) ≤ P.foldl max (max v m) :=
          foldlMax_mono P (max_le_max (le_refl v) hgm)
        have hdecm : P.foldl max (max v m) = max m (P.foldl max v) := by
          rw [max_comm v m, foldlMax_base]
        have hdecg : P.foldl max (max v g) = max g (P.foldl max v) := by
          rw [max_comm v g, foldlMax_base]
        refine ⟨?_, ?_, ?_⟩
        · intro hra
          exact le_trans hGle (hrel.1 hra)
        · intro hbr
          have hrle := hrel.2.1 hbr
          rw [hdecm] at hrle
          have hmr : m < R := lt_of_le_of_lt hma (lt_of_lt_of_le hab hbr)
          have hrP : R ≤ P.foldl max v := by
            rcases max_cases m (P.foldl max v) with ⟨h1, h2⟩ | ⟨h1, h2⟩
            · rw [h1] at hrle
              exact absurd hrle (not_le.2 hmr)
            · rw [h1] at hrle
              exact hrle
          rw [hdecg]
          exact le_trans hrP (le_max_right _ _)
        · intro har hrb
          have hreq := hrel.2.2 har hrb
          rw [hdecm] at hreq
          have hmr : m < R := lt_of_le_of_lt hma har
          have hrP : R = P.foldl max v := by
            rcases max_cases m (P.foldl max v) with ⟨h1, h2⟩ | ⟨h1, h2⟩
            · rw [h1] at hreq
              exact absurd hreq.le (not_le.2 hmr)
            · rw [h1] at hreq
              exact hreq
          rw [hdecg, ← hrP]
          exact (max_eq_right (le_of_lt (lt_of_le_of_lt (le_trans hgm hma) har))).symm
      · have ham : alpha < m := not_le.1 hma
        have hvm : max v m = m := max_eq_right (le_trans hva (le_of_lt ham))
        have hmb : m < beta := hvm ▸ hvb
        have hmg : m = g := hchild.2.2 ham hmb
        have halpha2 : max alpha (max v m) = m := by
          rw [hvm]
          exact max_eq_right (le_of_lt ham)
        rw [halpha2, hvm] at hrel hvr ⊢
        set R := maxLoopv ord b rest m beta m e with hRdef
        have hGeq : P.foldl max (max v g) = P.foldl max m := by
          rw [← hmg, hvm]
        rw [hGeq]
        refine ⟨?_, ?_, ?_⟩
        · intro hra
          exact absurd (lt_of_lt_of_le ham hvr) (not_lt.2 hra)
        · intro hbr
          exact hrel.2.1 hbr
        · intro har hrb
          by_cases hrm : R ≤ m
          · have hreq : R = m := le_antisymm hrm hvr
            have hGler : P.foldl max m ≤ R := hrel.1 (le_of_eq hreq)
            have hrleG : R ≤ P.foldl max m := by
              rw [hreq]
              exact le_foldlMax P m
            exact le_antisymm hrleG hGler
          · exact hrel.2.2 (not_le.1 hrm) hrb

/-- Fail-soft contract of the `min_value` loop, dual to
`maxLoopv_spec`: window `alpha < beta`, accumulator `beta ≤ v`. -/
theorem minLoopv_spec (ord : Board → List Nat) (e : Nat)
    (IHmax : ∀ b alpha beta, alpha < beta →
      REL (maxv ord b alpha beta e) (maxp b e) alpha beta) :
    ∀ cols (b : Board) (alpha beta v : XInt), alpha < beta → beta ≤ v →
      minLoopv ord b cols alpha beta v e ≤ v ∧
      REL (minLoopv ord b cols alpha beta v e)
        ((cols.map fun col => maxp (drop_piece b col HUMAN_PLAYER).1 e).foldl min v)
        alpha beta := by
  intro cols
  induction cols with
  | nil =>
    intro b alpha beta v hab hbv
    rw [minLoopv_nil]
    simp only [List.map_nil, List.foldl_nil]
    exact ⟨le_refl v, REL_refl v alpha beta⟩
  | cons col rest ih =>
    intro b alpha beta v hab hbv
    have hchild := IHmax (drop_piece b col HUMAN_PLAYER).1 alpha beta hab
    rw [minLoopv_cons]
    simp only [List.map_cons, List.foldl_cons]
    set m := maxv ord (drop_piece b col HUMAN_PLAYER).1 alpha beta e with hmdef
    set g := maxp (drop_piece b col HUMAN_PLAYER).1 e with hgdef
    set P := rest.map fun col => maxp (drop_piece b col HUMAN_PLAYER).1 e with hPdef
    split_ifs with hprune
    · have hvm : min v m = m := by
        rcases min_cases v m with ⟨h1, h2⟩ | ⟨h1, h2⟩
        · rw [h1] at hprune
          exact absurd hab (not_lt.2 (le_trans hbv hprune))
        · exact h1
      refine ⟨min_le_left v m, ?_, ?_, ?_⟩
      · intro _
        have hgm : g ≤ m := hchild.1 (by rw [hvm] at hprune; exact hprune)
        calc P.foldl min (min v g) ≤ min v g := foldlMin_le P _
          _ ≤ g := min_le_right v g
          _ ≤ m := hgm
          _ = min v m := hvm.symm
      · intro hbr
        exact absurd (lt_of_lt_of_le hab hbr) (not_lt.2 hprune)
      · intro har _
        exact absurd hprune (not_le.2 har)
    · have hav : alpha < min v m := not_le.1 hprune
      have hab2 : alpha < min beta (min v m) := lt_min hab hav
      obtain ⟨hvr, hrel⟩ := ih b alpha (min beta (min v m)) (min v m) hab2
        (min_le_right _ _)
      refine ⟨le_trans hvr (min_le_left v m), ?_⟩
      by_cases hmb : beta ≤ m
      · have hmg : m ≤ g := hchild.2.1 hmb
        have hvb2 : beta ≤ min v m := le_min hbv hmb
        rw [min_eq_left hvb2] at hrel ⊢
        set R := minLoopv ord b rest alpha beta (min v m) e with hRdef
        have hGle : P.foldl min (min v m) ≤ P.foldl min (min v g) :=
          foldlMin_mono P (min_le_min (le_refl v) hmg)
        have hdecm : P.foldl min (min v m) = min m (P.foldl min v) := by
          rw [min_comm v m, foldlMin_base]
        have hdecg : P.foldl min (min v g) = min g (P.foldl min v) := by
          rw [min_comm v g, foldlMin_base]
        refine ⟨?_, ?_, ?_⟩
        · intro hra
          have hrle := hrel.1 hra
          rw [hdecm] at hrle
          have hmr : R < m := lt_of_le_of_lt hra (lt_of_lt_of_le hab hmb)
          have hrP : P.foldl min v ≤ R := by
            rcases min_cases m (P.foldl min v) with ⟨h1, h2⟩ | ⟨h1, h2⟩
            · rw [h1] at hrle
              exact absurd hrle (not_le.2 hmr)
            · rw [h1] at hrle
              exact hrle
          rw [hdecg]
          exact le_trans (min_le_right _ _) hrP
        · intro hbr
          exact le_trans (hrel.2.1 hbr) hGle
        · intro har hrb
          have hreq := hrel.2.2 har hrb
          rw [hdecm] at hreq
          have hmr : R < m := lt_of_lt_of_le hrb hmb
          have hrP : R = P.foldl min v := by
            rcases min_cases m (P.foldl min v) with ⟨h1, h2⟩ | ⟨h1, h2⟩
            · rw [h1] at hreq
              exact absurd hreq.ge (not_le.2 hmr)
            · rw [h1] at hreq
              exact hreq
          rw [hdecg, ← hrP]
          exact (min_eq_right (le_of_lt (lt_of_lt_of_le hmr hmg))).symm
      · have hmb2 : m < beta := not_le.1 hmb
        have ham : alpha < m := lt_of_lt_of_le hav (min_le_right v m)
        have hvm : min v m = m := min_eq_right (le_trans (le_of_lt hmb2) hbv)
        have hmg : m = g := hchild.2.2 ham hmb2
        have hbeta2 : min beta (min v m) = m := by
          rw [hvm]
          exact min_eq_right (le_of_lt hmb2)
        rw [hbeta2, hvm] at hrel hvr ⊢
        set R := minLoopv ord b rest alpha m m e with hRdef
        have hGeq : P.foldl min (min v g) = P.foldl min m := by
          rw [← hmg, hvm]
        rw [hGeq]
        refine ⟨?_, ?_, ?_⟩
        · intro hra
          exact hrel.1 hra
        · intro hbr
          exact absurd (lt_of_le_of_lt hvr hmb2) (not_lt.2 hbr)
        · intro har hrb
          by_cases hrm : m ≤ R
          · have hreq : R = m := le_antisymm hvr hrm
            have hGler : R ≤ P.foldl min m := hrel.2.1 (le_of_eq hreq.symm)
            have hrleG : P.foldl min m ≤ R := by
              rw [hreq]
              exact foldlMin_le P m
            exact le_antisymm hGler hrleG
          · exact hrel.2.2 har (not_le.1 hrm)

/-- Fail-soft alpha-beta correctness at every node: for any move
ordering that permutes the legal moves and any window `alpha < beta`,
the pruned values of `maxv`/`minv` satisfy the `REL` contract against
the plain minimax values. -/
theorem searchREL (ord : Board → List Nat)
    (hord : ∀ b, (ord b).Perm (get_valid_moves b)) :
    ∀ d (b : Board) (alpha beta : XInt), alpha < beta →
      REL (maxv ord b alpha beta d) (maxp b d) alpha beta ∧
      REL (minv ord b alpha beta d) (minp b d) alpha beta := by
  intro d
  induction d with
  | zero =>
    intro b alpha beta _
    by_cases ht : Terminal_Test b = true
    · rw [maxv_terminal ord b alpha beta 0 ht, maxp_terminal b 0 ht,
        minv_terminal ord b alpha beta 0 ht, minp_terminal b 0 ht]
      exact ⟨REL_refl _ _ _, REL_refl _ _ _⟩
    · rw [Bool.not_eq_true] at ht
      rw [maxv_zero ord b alpha beta ht, maxp_zero b ht,
        minv_zero ord b alpha beta ht, minp_zero b ht]
      exact ⟨REL_refl _ _ _, REL_refl _ _ _⟩
  | succ e ih =>
    intro b alpha beta hab
    by_cases ht : Terminal_Test b = true
    · rw [maxv_terminal ord b alpha beta (e+1) ht, maxp_terminal b (e+1) ht,
        minv_terminal ord b alpha beta (e+1) ht, minp_terminal b (e+1) ht]
      exact ⟨REL_refl _ _ _, REL_refl _ _ _⟩
    · rw [Bool.not_eq_true] at ht
      constructor
      · rw [maxv_step ord b alpha beta e ht, maxp_step b e ht]
        have hspec := (maxLoopv_spec ord e
          (fun b2 a2 b3 h2 => (ih b2 a2 b3 h2).2) (ord b) b alpha beta ⊥ hab
          bot_le).2
        have hperm : (((ord b).map fun col =>
            minp (drop_piece b col AI_PLAYER).1 e).foldl max ⊥) =
            (((get_valid_moves b).map fun col =>
              minp (drop_piece b col AI_PLAYER).1 e).foldl max ⊥) :=
          foldlMax_perm (List.Perm.map _ (hord b)) ⊥
        rw [hperm] at hspec
        exact hspec
      · rw [minv_step ord b alpha beta e ht, minp_step b e ht]
        have hspec := (minLoopv_spec ord e
          (fun b2 a2 b3 h2 => (ih b2 a2 b3 h2).1) (ord b) b alpha beta ⊤ hab
          le_top).2
        have hperm : (((ord b).map fun col =>
            maxp (drop_piece b col HUMAN_PLAYER).1 e).foldl min ⊤) =
            (((get_valid_moves b).map fun col =>
              maxp (drop_piece b col HUMAN_PLAYER).1 e).foldl min ⊤) :=
          foldlMin_perm (List.Perm.map _ (hord b)) ⊤
        rw [hperm] at hspec
        exact hspec

/-- C9: with the full window `(-inf, +inf)` the alpha-beta search
returns exactly the plain minimax value, for any move ordering that is
a permutation of the legal moves; in particular the source's
`max_value`/`min_value` (which order moves with `prioritize_moves`)
return the plain minimax value computed over the ascending legal moves,
so move ordering changes only the pruning, never the value. -/
theorem C9_alphabeta_eq_minimax (ord : Board → List Nat)
    (hord : ∀ b, (ord b).Perm (get_valid_moves b)) (b : Board) (d : Nat) :
    maxv ord b ⊥ ⊤ d = maxp b d ∧ minv ord b ⊥ ⊤ d = minp b d ∧
      max_value b ⊥ ⊤ d = maxp b d ∧ min_value b ⊥ ⊤ d = minp b d := by
  have hmain := searchREL ord hord d b ⊥ ⊤ bot_lt_top
  have hcode := searchREL prioritize_moves prioritize_moves_perm d b ⊥ ⊤ bot_lt_top
  exact ⟨REL_full_window hmain.1, REL_full_window hmain.2,
    REL_full_window hcode.1, REL_full_window hcode.2⟩

/-- C9 witness: the ascending legal-move order on the empty board at
depth 1. -/
theorem C9_witness :
    (∀ b, (get_valid_moves b).Perm (get_valid_moves b)) ∧
      (maxv get_valid_moves emptyBoard ⊥ ⊤ 1 = maxp emptyBoard 1 ∧
        minv get_valid_moves emptyBoard ⊥ ⊤ 1 = minp emptyBoard 1 ∧
        max_value emptyBoard ⊥ ⊤ 1 = maxp emptyBoard 1 ∧
        min_value emptyBoard ⊥ ⊤ 1 = minp emptyBoard 1) :=
  ⟨fun _ => List.Perm.refl _,
    C9_alphabeta_eq_minimax get_valid_moves (fun _ => List.Perm.refl _)
      emptyBoard 1⟩
